import Mathlib

/-
Shallow embedding of the tool relationship graph and combination sampler of
this repository:

  * src/modules/agent_synthesizer/tool_graph.py
      (ToolGraph: build_graph, _build_edges_by_similarity,
       _calculate_cosine_similarity, random_walk_selection,
       _weighted_random_choice, get_related_tools)
  * src/modules/agent_synthesizer/tool_combination_generator.py
      (ToolCombinationGenerator: process, _group_tools_by_scenario,
       _build_scenario_graphs, _generate_combinations_from_scenarios,
       _generate_combinations_for_scenario, _generate_random_walk_combinations,
       _create_combination_record, _deduplicate_combinations,
       get_combination_stats)
  * src/utils/data_processor.py (generate_id)

Modelling conventions:
  * Python floats are modelled as rationals (ℚ).  `math.sqrt` /
    `np.linalg.norm`'s square root is abstracted as an explicit function
    parameter `sqrt : ℚ → ℚ`; theorems that depend on its behaviour carry the
    facts they need about it (e.g. `sqrt 0 = 0`) as hypotheses.
  * The global random generators (`random.random`, `random.choice`,
    `random.randint`, `np.random.choice`) are modelled as a single oracle
    stream `rng : ℕ → ℚ` together with an explicit cursor that is threaded
    through every function.  A draw `rng i` is used either as a value in
    [0,1) (compared against the restart probability) or as an arbitrary
    index (`drawIdx`).  The weighted choice `np.random.choice(neighbors,
    p=weights)` is modelled as an oracle-chosen index into the neighbor
    list: the distribution is out of scope, and the support is
    over-approximated (universally quantified theorems only become
    stronger; existential counterexamples below only ever select neighbors
    whose edge weight is positive, which are in the true support).
  * `datetime.now().isoformat()` is modelled as an oracle `clock : ℕ → String`
    with its own cursor; `_create_combination_record` consumes two clock
    values (one hashed into the id, one stored in metadata.generated_at).
  * `DataProcessor.generate_id`'s md5 digest is abstracted as a function
    parameter `hf : String → List String → String → String` applied to the
    scenario id, the sorted tool-id list and the timestamp — exactly the
    fields serialized into the hashed payload.
  * Python sets (`selected_tools` in the random walk) are modelled as
    insertion-ordered duplicate-free lists (`insertNew`); Python's
    arbitrary set iteration order is thereby fixed to insertion order.
    None of the claims depend on the iteration order.
  * Python's stable `list.sort(key=..., reverse=True)` is modelled by the
    stable insertion sort `sortDescBy`, and `sorted` on strings by
    `sortStrings`.
  * networkx's `Graph` is modelled as a node list plus an edge list; the
    neighbor order produced by scanning the edge list in insertion order
    coincides with networkx's adjacency insertion order for the graphs
    built here (each unordered pair is inserted at most once).
  * A tool record lacking the 'metadata' key makes
    `_build_edges_by_similarity` raise (AttributeError on None.get); the
    exception is re-raised by ToolGraph.process and caught per scenario by
    `_build_scenario_graphs`, which skips the scenario.  This is modelled
    by `buildGraphE` returning `Except`.
  * All loops in the source are bounded (the walk by `walk_length * count`
    steps, the top-up loop by `min_tools_per_agent` iterations since every
    iteration either breaks or strictly grows the selection); they are
    modelled with explicit fuel equal to those bounds.
-/

/- Batteries marks rational arithmetic `@[irreducible]`, which blocks the
`decide`-based evaluation of the executable model on concrete inputs; restore
the ordinary reducibility of the underlying definitions for this file. -/
attribute [local semireducible] Rat.mul Rat.inv Rat.add

namespace AgentDataGen

/-! ### Basic list/set helpers (Python `set.add` / `set.update` in insertion order) -/

def insertNew (l : List String) (x : String) : List String :=
  if x ∈ l then l else l ++ [x]

def unionNew (l : List String) (xs : List String) : List String :=
  xs.foldl insertNew l

/-- First occurrences, in order (iteration order of a Python dict/Counter). -/
def distinctFirst (l : List String) : List String := l.foldl insertNew []

/-- Oracle-driven index selection: an arbitrary rational draw is collapsed to
an index below `n`.  Used to model `random.choice`, `random.randint` and the
(support-over-approximated) weighted `np.random.choice`. -/
def drawIdx (q : ℚ) (n : ℕ) : ℕ :=
  q.floor.toNat % n

/-- Model of `random.choice(xs)`; for `xs = []` Python raises, the model returns `""`
(all call sites in the pipeline are guarded so that `xs ≠ []` whenever
`1 ≤ min_tools_per_agent`). -/
def listChoice (xs : List String) (q : ℚ) : String :=
  xs.getD (drawIdx q xs.length) ""

/-! ### Stable sorts (Python `list.sort(key=..., reverse=True)` and `sorted`) -/

def insertDescBy {α : Type} (key : α → ℚ) (x : α) : List α → List α
  | [] => [x]
  | y :: ys => if key y ≤ key x then x :: y :: ys else y :: insertDescBy key x ys

def sortDescBy {α : Type} (key : α → ℚ) : List α → List α
  | [] => []
  | x :: xs => insertDescBy key x (sortDescBy key xs)

def charListLe : List Char → List Char → Bool
  | [], _ => true
  | _ :: _, [] => false
  | a :: as, b :: bs => if a < b then true else if b < a then false else charListLe as bs

/-- Python string comparison: lexicographic on code points. -/
def strLeB (a b : String) : Bool := charListLe a.data b.data

def insertStr (x : String) : List String → List String
  | [] => [x]
  | y :: ys => if strLeB x y then x :: y :: ys else y :: insertStr x ys

def sortStrings : List String → List String
  | [] => []
  | x :: xs => insertStr x (sortStrings xs)

/-! ### Data model -/

structure ToolMeta where
  embedding : Option (List ℚ)
deriving DecidableEq

structure Tool where
  id : String
  scenarioIds : List String
  metadata : Option ToolMeta
deriving DecidableEq

/-- Model of `nodes` in networkx insertion order, `edges` as an insertion-ordered list
`(u, v, weight)`; `edge_type` is always `'similarity'` for graphs built by
`build_graph` (the category/domain pass exists in the source but is never
called), so it is not carried. -/
structure Graph where
  nodes : List String
  edges : List (String × String × ℚ)
deriving DecidableEq

/-! ### `ToolGraph._calculate_cosine_similarity` -/

def dotProd : List ℚ → List ℚ → ℚ
  | a :: as, b :: bs => a * b + dotProd as bs
  | _, _ => 0

def normSq (v : List ℚ) : ℚ := dotProd v v

/-- Model of `_calculate_cosine_similarity`.  `np.dot` raises on vectors of different
lengths; the surrounding `try/except` turns that into a returned `0.0`
(first branch).  `np.linalg.norm` is `sqrt` of the sum of squares; the
`norm1 == 0 or norm2 == 0` guard returns `0.0` before any division. -/
def cosineSim (sqrt : ℚ → ℚ) (e1 e2 : List ℚ) : ℚ :=
  if e1.length ≠ e2.length then 0
  else if sqrt (normSq e1) = 0 ∨ sqrt (normSq e2) = 0 then 0
  else dotProd e1 e2 / (sqrt (normSq e1) * sqrt (normSq e2))

/-! ### `ToolGraph.build_graph` / `_build_edges_by_similarity` -/

/-- The `tools_with_embeddings` list comprehension: keeps tools whose
`metadata.embedding` is truthy (present and non-empty).  The comprehension
evaluates `tool.get('metadata').get('embedding')`, which raises when
`metadata` is absent — that case is handled by `buildGraphE` below. -/
def embeddedTools (tools : List Tool) : List (String × List ℚ) :=
  tools.filterMap (fun t =>
    match t.metadata with
    | some m =>
      match m.embedding with
      | some e => if e = [] then none else some (t.id, e)
      | none => none
    | none => none)

/-- The inner loop of `_build_edges_by_similarity` for index `i`: pair tool
`i` with every tool at index `j > i` (the `if i >= j: continue` guard) and
keep the pairs whose similarity reaches `min_similarity_threshold`. -/
def similaritiesFor (sim : List ℚ → List ℚ → ℚ) (minThr : ℚ)
    (emb : List (String × List ℚ)) (i : ℕ) : List (String × ℚ) :=
  ((emb.drop (i + 1)).map
      (fun t2 => (t2.1, sim (emb.getD i ("", [])).2 t2.2))).filter
    (fun p => decide (minThr ≤ p.2))

/-- The per-tool edge insertions: sort candidates by similarity descending
(stably), keep `similarities[:max_edges_per_node]`, and add an edge for each
one that also reaches `similarity_threshold` (the retention threshold). -/
def edgesForIndex (sim : List ℚ → List ℚ → ℚ) (minThr retThr : ℚ) (cap : ℕ)
    (emb : List (String × List ℚ)) (i : ℕ) : List (String × String × ℚ) :=
  (((sortDescBy Prod.snd (similaritiesFor sim minThr emb i)).take cap).filter
      (fun p => decide (retThr ≤ p.2))).map
    (fun p => ((emb.getD i ("", [])).1, p.1, p.2))

def buildEdgesBySimilarity (sim : List ℚ → List ℚ → ℚ) (minThr retThr : ℚ) (cap : ℕ)
    (emb : List (String × List ℚ)) : List (String × String × ℚ) :=
  (List.range emb.length).foldl
    (fun es i => es ++ edgesForIndex sim minThr retThr cap emb i) []

/-- The `add_node` loop of `build_graph`: one node per tool with a truthy id
(duplicate ids collapse to one node, as in networkx). -/
def addNodes (tools : List Tool) : List String :=
  tools.foldl (fun ns t => if t.id = "" then ns else insertNew ns t.id) []

/-- networkx `add_edge` implicitly creates missing endpoint nodes. -/
def addEdgeEndpoints (base : List String) (es : List (String × String × ℚ)) :
    List String :=
  es.foldl (fun ns e => insertNew (insertNew ns e.1) e.2.1) base

/- The threshold attributes are set in `ToolGraph.__init__` and never
overridden from configuration. -/
def defaultMinThreshold : ℚ := 1/2
def defaultRetentionThreshold : ℚ := 7/10
def defaultMaxEdgesPerNode : ℕ := 10
def defaultWalkLength : ℕ := 6
def defaultRestartProbability : ℚ := 15/100

/-- Model of `build_graph` on a tool list whose members all carry a `metadata` dict. -/
def buildGraphCore (sqrt : ℚ → ℚ) (tools : List Tool) : Graph :=
  { nodes := addEdgeEndpoints (addNodes tools)
      (buildEdgesBySimilarity (cosineSim sqrt) defaultMinThreshold
        defaultRetentionThreshold defaultMaxEdgesPerNode (embeddedTools tools))
  , edges := buildEdgesBySimilarity (cosineSim sqrt) defaultMinThreshold
      defaultRetentionThreshold defaultMaxEdgesPerNode (embeddedTools tools) }

/-- Model of `ToolGraph.process` for one scenario's tool list: a tool without a
`metadata` dict makes the edge-building comprehension raise, which
`process` re-raises as `AgentDataGenException`; otherwise the graph is
built.  (The `if not tools: raise` guard of `process` never fires in the
pipeline because scenario groups are non-empty by construction.) -/
def buildGraphE (sqrt : ℚ → ℚ) (tools : List Tool) : Except String Graph :=
  if tools.all (fun t => t.metadata.isSome) then .ok (buildGraphCore sqrt tools)
  else .error "Failed to build tool graph"

/-! ### Graph primitives: neighbors, edge weights, `get_related_tools` -/

/-- Model of `list(graph.neighbors(u))`: scanning the insertion-ordered edge list
reproduces networkx's adjacency order for pair-unique edge insertions. -/
def neighborsOf (es : List (String × String × ℚ)) (u : String) : List String :=
  es.filterMap (fun e =>
    if e.1 = u then some e.2.1 else if e.2.1 = u then some e.1 else none)

def findEdgeWeight : List (String × String × ℚ) → String → String → Option ℚ
  | [], _, _ => none
  | e :: rest, u, v =>
    if (e.1 = u ∧ e.2.1 = v) ∨ (e.1 = v ∧ e.2.1 = u) then some e.2.2
    else findEdgeWeight rest u v

/-- Model of `get_edge_data(u, v).get('weight', 0.5)` with the `if edge_data else 0.5`
fallback. -/
def edgeWeight (g : Graph) (u v : String) : ℚ := (findEdgeWeight g.edges u v).getD (1/2)

/-- Model of `get_related_tools`: direct neighbors ranked by edge weight descending,
truncated to `max_count`. -/
def getRelatedTools (g : Graph) (toolId : String) (maxCount : ℕ) : List String :=
  if toolId ∈ g.nodes then
    (((sortDescBy Prod.snd
        ((neighborsOf g.edges toolId).map (fun nb => (nb, edgeWeight g toolId nb)))).take
      maxCount).map Prod.fst)
  else []

/-! ### `ToolGraph.random_walk_selection` -/

/-- The bounded walk loop (`for _ in range(self.walk_length * count)`), with
the early break once `count` nodes (including the start) are collected.
Each iteration consumes one oracle draw for the restart test and, when a
weighted neighbor step is taken, one more for the neighbor index. -/
def walkLoop (g : Graph) (restartProb : ℚ) (start : String) (count : ℕ)
    (rng : ℕ → ℚ) : ℕ → List String → String → ℕ → List String × ℕ
  | 0, sel, _, i => (sel, i)
  | fuel + 1, sel, cur, i =>
    if count ≤ sel.length then (sel, i)
    else
      if rng i < restartProb then
        walkLoop g restartProb start count rng fuel (insertNew sel cur) start (i + 1)
      else
        match neighborsOf g.edges cur with
        | [] => walkLoop g restartProb start count rng fuel (insertNew sel cur) start (i + 1)
        | nb :: nbs =>
          walkLoop g restartProb start count rng fuel (insertNew sel cur)
            ((nb :: nbs).getD (drawIdx (rng (i + 1)) (nbs.length + 1)) "") (i + 2)

/-- The post-walk padding: `if len(selected_tools) < count:
selected_tools.update(get_related_tools(start, count - len(selected_tools)))`.
Note the source does **not** exclude already-selected tools from the
`get_related_tools` call. -/
def padSelection (g : Graph) (start : String) (count : ℕ) (sel : List String) :
    List String :=
  if sel.length < count then unionNew sel (getRelatedTools g start (count - sel.length))
  else sel

/-- Model of `random_walk_selection(start, count)` (with the restart probability and
walk length the caller-visible defaults of the source): absent start returns
`[]`; otherwise walk, discard the start, pad, truncate to `count`. -/
def randomWalkSelection (g : Graph) (walkLen : ℕ) (restartProb : ℚ) (start : String)
    (count : ℕ) (rng : ℕ → ℚ) (i : ℕ) : List String × ℕ :=
  if start ∈ g.nodes then
    match walkLoop g restartProb start count rng (walkLen * count) [] start i with
    | (sel, i') => ((padSelection g start count (sel.erase start)).take count, i')
  else ([], i)

/-! ### `ToolCombinationGenerator` -/

structure Record where
  id : String
  scenarioId : String
  toolIds : List String
  generationMethod : String
  startTool : String
  toolCount : ℕ
  generatedAt : String
deriving DecidableEq

/-- The dedup signature `tuple(sorted(combo['tool_ids']))`. -/
def sigOf (r : Record) : List String := sortStrings r.toolIds

/-- Model of `_create_combination_record`: the id is `generate_id('combination', ...)`
over the scenario, the sorted tool ids and a `datetime.now()` timestamp (the
md5 digest abstracted as `hf`); the metadata carries a second `now()` value
as `generated_at`. -/
def mkRecord (hf : String → List String → String → String) (sid : String)
    (toolIds : List String) (method start t1 t2 : String) : Record :=
  { id := hf sid (sortStrings toolIds) t1
  , scenarioId := sid
  , toolIds := toolIds
  , generationMethod := method
  , startTool := start
  , toolCount := toolIds.length
  , generatedAt := t2 }

/-- The `while len(selected_tools) < self.min_tools_per_agent` top-up loop:
append a uniformly random tool not yet selected, or break when none remain.
Every iteration strictly grows the selection, so `minT` fuel is exact. -/
def topUp (available : List String) (minT : ℕ) (rng : ℕ → ℚ) :
    ℕ → List String → ℕ → List String × ℕ
  | 0, sel, i => (sel, i)
  | fuel + 1, sel, i =>
    if sel.length < minT then
      match available.filter (fun t => decide (t ∉ sel)) with
      | [] => (sel, i)
      | r :: rs =>
        topUp available minT rng fuel
          (sel ++ [(r :: rs).getD (drawIdx (rng i) (rs.length + 1)) ""]) (i + 1)
    else (sel, i)

/-- The body of one draw of `_generate_random_walk_combinations`, after the
start tool and the combination size `cs` have been drawn: walk with
`cs - 1`, prepend the start if absent, truncate to `cs`, top up, and accept
when at least `min_tools_per_agent` tools were gathered. -/
def drawBody (hf : String → List String → String → String) (sid : String) (g : Graph)
    (minT : ℕ) (available : List String) (rng : ℕ → ℚ) (clock : ℕ → String)
    (start : String) (cs : ℕ) (i c : ℕ) : Option Record × ℕ × ℕ :=
  match randomWalkSelection g defaultWalkLength defaultRestartProbability start
      (cs - 1) rng i with
  | (selW, i') =>
    match topUp available minT rng minT
        ((if start ∈ selW then selW else start :: selW).take cs) i' with
    | (sel, i'') =>
      if minT ≤ sel.length then
        (some (mkRecord hf sid sel "random_walk" start (clock c) (clock (c + 1))),
          i'', c + 2)
      else (none, i'', c)

/-- One iteration of the `for i in range(count)` loop of
`_generate_random_walk_combinations`: draw the start tool
(`random.choice(available_tools)`) and the size
(`random.randint(min_tools_per_agent, max_tools_per_agent)`). -/
def oneDraw (hf : String → List String → String → String) (sid : String) (g : Graph)
    (minT maxT : ℕ) (available : List String) (rng : ℕ → ℚ) (clock : ℕ → String)
    (i c : ℕ) : Option Record × ℕ × ℕ :=
  drawBody hf sid g minT available rng clock (listChoice available (rng i))
    (minT + drawIdx (rng (i + 1)) (maxT - minT + 1)) (i + 2) c

def genLoop (hf : String → List String → String → String) (sid : String) (g : Graph)
    (minT maxT : ℕ) (available : List String) (rng : ℕ → ℚ) (clock : ℕ → String) :
    ℕ → ℕ → ℕ → List Record → List Record × ℕ × ℕ
  | 0, i, c, acc => (acc, i, c)
  | n + 1, i, c, acc =>
    match oneDraw hf sid g minT maxT available rng clock i c with
    | (some r, i', c') =>
      genLoop hf sid g minT maxT available rng clock n i' c' (acc ++ [r])
    | (none, i', c') => genLoop hf sid g minT maxT available rng clock n i' c' acc

/-- Model of `_generate_random_walk_combinations(scenario_id, graph, count)`;
`available_tools = list(graph.graph.nodes())`. -/
def generateRandomWalkCombinations (hf : String → List String → String → String)
    (sid : String) (g : Graph) (minT maxT count : ℕ) (rng : ℕ → ℚ)
    (clock : ℕ → String) (i c : ℕ) : List Record × ℕ × ℕ :=
  genLoop hf sid g minT maxT g.nodes rng clock count i c []

/-- Model of `_generate_combinations_for_scenario`: skip scenarios whose graph has
fewer than `min_tools_per_agent` nodes, and truncate to the target count. -/
def generateCombinationsForScenario (hf : String → List String → String → String)
    (sid : String) (g : Graph) (minT maxT target : ℕ) (rng : ℕ → ℚ)
    (clock : ℕ → String) (i c : ℕ) : List Record × ℕ × ℕ :=
  if g.nodes.length < minT then ([], i, c)
  else
    match generateRandomWalkCombinations hf sid g minT maxT target rng clock i c with
    | (l, i', c') => (l.take target, i', c')

/-- Model of `_generate_combinations_from_scenarios`: every scenario independently
targets `target_count`; results are concatenated in scenario order. -/
def scenariosLoop (hf : String → List String → String → String) (minT maxT target : ℕ)
    (rng : ℕ → ℚ) (clock : ℕ → String) :
    List (String × Graph) → ℕ → ℕ → List Record → List Record × ℕ × ℕ
  | [], i, c, acc => (acc, i, c)
  | (sid, g) :: rest, i, c, acc =>
    match generateCombinationsForScenario hf sid g minT maxT target rng clock i c with
    | (l, i', c') => scenariosLoop hf minT maxT target rng clock rest i' c' (acc ++ l)

/-- Model of `defaultdict(list)` keyed by the primary scenario, preserving first-key
insertion order as Python dicts do. -/
def addToGroup : List (String × List Tool) → String → Tool → List (String × List Tool)
  | [], s, t => [(s, [t])]
  | (k, ts) :: rest, s, t =>
    if k = s then (k, ts ++ [t]) :: rest else (k, ts) :: addToGroup rest s t

/-- The grouping loop of `_group_tools_by_scenario`: assign each tool to its
first scenario id (tools with no scenario go to `no_scenario_tools`, which
the source never uses afterwards). -/
def groupFold (tools : List Tool) : List (String × List Tool) :=
  tools.foldl (fun acc t =>
    match t.scenarioIds with
    | [] => acc
    | s :: _ => addToGroup acc s t) []

/-- Model of `_group_tools_by_scenario`: group by primary scenario, then keep only
groups with at least `min_tools_per_agent` tools. -/
def groupToolsByScenario (minT : ℕ) (tools : List Tool) : List (String × List Tool) :=
  (groupFold tools).filter (fun p => decide (minT ≤ p.2.length))

/-- Model of `_build_scenario_graphs`: per-scenario graph construction; a scenario
whose build raises is skipped (`except ...: continue`). -/
def buildScenarioGraphs (sqrt : ℚ → ℚ) (groups : List (String × List Tool)) :
    List (String × Graph) :=
  groups.filterMap (fun p =>
    match buildGraphE sqrt p.2 with
    | .ok g => some (p.1, g)
    | .error _ => none)

/-- Model of `_deduplicate_combinations`: keep the first combination seen for each
sorted tool-id signature. -/
def dedupAux : List (List String) → List Record → List Record
  | _, [] => []
  | seen, r :: rest =>
    if sigOf r ∈ seen then dedupAux seen rest
    else r :: dedupAux (sigOf r :: seen) rest

def deduplicateCombinations (l : List Record) : List Record := dedupAux [] l

/-- Model of `ToolCombinationGenerator.process` (the Sample call): empty tool pool
raises `AgentDataGenException`; otherwise group, build per-scenario graphs,
sample, deduplicate. -/
def processCombinations (hf : String → List String → String → String) (sqrt : ℚ → ℚ)
    (minT maxT target : ℕ) (tools : List Tool) (rng : ℕ → ℚ) (clock : ℕ → String)
    (i c : ℕ) : Except String (List Record) :=
  if tools = [] then .error "No tools provided"
  else
    .ok (deduplicateCombinations
      (scenariosLoop hf minT maxT target rng clock
        (buildScenarioGraphs sqrt (groupToolsByScenario minT tools)) i c []).1)

/-- The `scenario_distribution` entry of `get_combination_stats`:
`Counter(scenarios).most_common(10)` — counts keyed in first-appearance
order, sorted by count descending, truncated to ten.  (The remaining
entries of the stats dictionary are not consulted by any claim.) -/
def scenarioDistribution (combos : List Record) : List (String × ℕ) :=
  (sortDescBy (fun p => (p.2 : ℚ))
      ((distinctFirst (combos.map Record.scenarioId)).map
        (fun s => (s, (combos.filter (fun r => decide (r.scenarioId = s))).length)))).take
    10

/-- The clock-independent fields of a record (everything except the hashed
id and `metadata.generated_at`). -/
def stripRecord (r : Record) : String × List String × String × String × ℕ :=
  (r.scenarioId, r.toolIds, r.generationMethod, r.startTool, r.toolCount)

/-! ## Concrete fixtures used by witnesses and counterexamples -/

def sqrtZero : ℚ → ℚ := fun _ => 0

/-- A concrete stand-in for the md5-based `generate_id` hash. -/
def hashConcat : String → List String → String → String :=
  fun s ts t => s ++ "|" ++ String.intercalate "," ts ++ "|" ++ t

/-- A tool of scenario S1 carrying a metadata dict without an embedding. -/
def toolNoEmb (n : String) : Tool := ⟨n, ["S1"], some ⟨none⟩⟩

def poolFive : List Tool :=
  [toolNoEmb "A", toolNoEmb "B", toolNoEmb "C", toolNoEmb "D", toolNoEmb "E"]

/-- An oracle stream whose first draw selects index 3 (the tool "D" of
`poolFive`), all later draws 0. -/
def rngSeedD : ℕ → ℚ := fun n => if n = 0 then 3 else 0

def clockA : ℕ → String := fun _ => "2025-01-01T00:00:00"
def clockB : ℕ → String := fun _ => "2025-01-01T00:00:01"

def defaultRecord : Record := ⟨"", "", [], "", "", 0, ""⟩

/-- A square root stand-in that is exact at the two values a concrete
similarity-edge fixture needs: `sqrt 0 = 0` and `sqrt 1 = 1`. -/
def sqrtNaive : ℚ → ℚ := fun q => if q = 0 then 0 else 1

def toolEmb (n : String) (e : List ℚ) : Tool := ⟨n, ["S1"], some ⟨some e⟩⟩

def poolUnit : List Tool := [toolEmb "U" [1], toolEmb "V" [1]]

/-- The §8-style example graph: S has two neighbors A (weight 0.9) and
B (weight 0.8). -/
def gC5 : Graph := ⟨["S", "A", "B"], [("S", "A", 9/10), ("S", "B", 8/10)]⟩

/-- First draw 1 (no restart), then 0: walk to A, then restart, then the
early break fires with the start still counted. -/
def rngC5 : ℕ → ℚ := fun n => if n = 0 then 1 else 0

/-- The all-restart oracle: the walk never leaves the start. -/
def rngZero : ℕ → ℚ := fun _ => 0

/-- The §7 mismatched-embedding pool: tools A and B carry embedding vectors
of different lengths within the same Sample call. -/
def poolMismatch : List Tool :=
  [⟨"A", ["S1"], some ⟨some [1]⟩⟩, ⟨"B", ["S1"], some ⟨some [1, 0]⟩⟩,
    ⟨"C", ["S1"], some ⟨none⟩⟩]

/-- Tools of a two-member scenario S2, below the default floor of 3. -/
def poolSmallScenario : List Tool :=
  poolFive ++ [⟨"F", ["S2"], some ⟨none⟩⟩, ⟨"G", ["S2"], some ⟨none⟩⟩]

/-- A similarity table for the order-dependence example: the hub embedding
[100] has similarity 0.7 + q/1000 with each leaf embedding [q]; leaves have
similarity 0 with each other. -/
def simStar : List ℚ → List ℚ → ℚ := fun e1 e2 =>
  if e1 = [100] then
    match e2 with
    | [q] => 7/10 + q/1000
    | _ => 0
  else if e2 = [100] then
    match e1 with
    | [q] => 7/10 + q/1000
    | _ => 0
  else 0

def hubTool : String × List ℚ := ("A", [100])

def leafTool (n : ℕ) : String × List ℚ := ("B" ++ toString n, [(n : ℚ)])

def leafTail : List (String × List ℚ) := (List.range 10).map (fun n => leafTool (n + 2))

/-- Hub first: its own pass ranks eleven candidates and the cap of 10 drops
the weakest leaf B1. -/
def orderHubFirst : List (String × List ℚ) := hubTool :: leafTool 1 :: leafTail

/-- B1 first: B1's own pass proposes the edge B1–A before the hub's pass
runs, so all eleven edges exist. -/
def orderLeafFirst : List (String × List ℚ) := leafTool 1 :: hubTool :: leafTail

/-! ## Helper lemmas -/

theorem insertDescBy_perm {α : Type} (key : α → ℚ) (x : α) (l : List α) :
    (insertDescBy key x l).Perm (x :: l) := by
  induction l with
  | nil => simp [insertDescBy]
  | cons y ys ih =>
    simp only [insertDescBy]
    split
    · exact List.Perm.refl _
    · exact (List.Perm.cons y ih).trans (List.Perm.swap x y ys)

theorem sortDescBy_perm {α : Type} (key : α → ℚ) (l : List α) :
    (sortDescBy key l).Perm l := by
  induction l with
  | nil => simp [sortDescBy]
  | cons x xs ih =>
    exact (insertDescBy_perm key x (sortDescBy key xs)).trans (List.Perm.cons x ih)

theorem mem_sortDescBy {α : Type} {key : α → ℚ} {l : List α} {a : α} :
    a ∈ sortDescBy key l ↔ a ∈ l :=
  (sortDescBy_perm key l).mem_iff

theorem length_sortDescBy {α : Type} (key : α → ℚ) (l : List α) :
    (sortDescBy key l).length = l.length :=
  (sortDescBy_perm key l).length_eq

theorem nodup_sortDescBy {α : Type} {key : α → ℚ} {l : List α} (h : l.Nodup) :
    (sortDescBy key l).Nodup :=
  ((sortDescBy_perm key l).nodup_iff).mpr h

theorem mem_insertNew {l : List String} {x a : String} :
    a ∈ insertNew l x ↔ a ∈ l ∨ a = x := by
  simp only [insertNew]
  split
  · rename_i h
    constructor
    · exact fun ha => Or.inl ha
    · rintro (ha | rfl) <;> assumption
  · simp [List.mem_append]

theorem nodup_insertNew {l : List String} (x : String) (h : l.Nodup) :
    (insertNew l x).Nodup := by
  simp only [insertNew]
  split
  · exact h
  · rename_i hx
    rw [List.nodup_append]
    refine ⟨h, List.nodup_singleton x, ?_⟩
    intro b hb hbx
    rw [List.mem_singleton] at hbx
    subst hbx
    exact hx hb

theorem nodup_unionNew {l : List String} (xs : List String) (h : l.Nodup) :
    (unionNew l xs).Nodup := by
  induction xs generalizing l with
  | nil => exact h
  | cons x xs ih => exact ih (nodup_insertNew x h)

theorem unionNew_of_disjoint {l xs : List String} (hx : xs.Nodup)
    (hd : ∀ x ∈ xs, x ∉ l) : unionNew l xs = l ++ xs := by
  induction xs generalizing l with
  | nil => simp [unionNew]
  | cons x xs ih =>
    have hxl : x ∉ l := hd x (by simp)
    have : insertNew l x = l ++ [x] := by simp [insertNew, hxl]
    calc unionNew l (x :: xs) = unionNew (l ++ [x]) xs := by
          simp [unionNew, List.foldl_cons, this]
      _ = (l ++ [x]) ++ xs := by
          refine ih hx.of_cons ?_
          intro y hy
          simp only [List.mem_append, List.mem_singleton]
          rintro (hyl | rfl)
          · exact hd y (by simp [hy]) hyl
          · exact hx.not_mem hy
      _ = l ++ x :: xs := by simp

theorem nodup_append_singleton {l : List String} {x : String} (h : l.Nodup)
    (hx : x ∉ l) : (l ++ [x]).Nodup := by
  rw [List.nodup_append]
  refine ⟨h, List.nodup_singleton x, ?_⟩
  intro b hb hbx
  rw [List.mem_singleton] at hbx
  subst hbx
  exact hx hb

theorem getD_mem_cons (r : String) (rs : List String) (k : ℕ) :
    (r :: rs).getD (k % (rs.length + 1)) "" ∈ r :: rs := by
  have hk : k % (rs.length + 1) < (r :: rs).length := by
    simpa using Nat.mod_lt k (Nat.succ_pos rs.length)
  rw [List.getD_eq_getElem _ _ hk]
  exact List.getElem_mem hk

theorem walkLoop_nodup (g : Graph) (restartProb : ℚ) (start : String) (count : ℕ)
    (rng : ℕ → ℚ) (fuel : ℕ) (sel : List String) (cur : String) (i : ℕ)
    (h : sel.Nodup) :
    (walkLoop g restartProb start count rng fuel sel cur i).1.Nodup := by
  induction fuel generalizing sel cur i with
  | zero => simpa [walkLoop] using h
  | succ n ih =>
    simp only [walkLoop]
    split
    · exact h
    · split
      · exact ih _ _ _ (nodup_insertNew cur h)
      · split
        · exact ih _ _ _ (nodup_insertNew cur h)
        · exact ih _ _ _ (nodup_insertNew cur h)

theorem randomWalkSelection_nodup (g : Graph) (walkLen : ℕ) (restartProb : ℚ)
    (start : String) (count : ℕ) (rng : ℕ → ℚ) (i : ℕ) :
    (randomWalkSelection g walkLen restartProb start count rng i).1.Nodup := by
  simp only [randomWalkSelection]
  split
  · rcases hw : walkLoop g restartProb start count rng (walkLen * count) [] start i with
      ⟨sel, i'⟩
    have hsel : sel.Nodup := by
      have h0 := walkLoop_nodup g restartProb start count rng (walkLen * count) [] start i
        List.nodup_nil
      rw [hw] at h0
      exact h0
    simp only [hw]
    refine List.Sublist.nodup (List.take_sublist _ _) ?_
    unfold padSelection
    split
    · exact nodup_unionNew _ (hsel.erase start)
    · exact hsel.erase start
  · simp

theorem topUp_nodup (available : List String) (minT : ℕ) (rng : ℕ → ℚ) (fuel : ℕ)
    (sel : List String) (i : ℕ) (h : sel.Nodup) :
    (topUp available minT rng fuel sel i).1.Nodup := by
  induction fuel generalizing sel i with
  | zero => simpa [topUp] using h
  | succ n ih =>
    simp only [topUp]
    split
    · split
      · exact h
      · rename_i hflt
        apply ih
        apply nodup_append_singleton h
        rename_i r rs
        have hmem : (r :: rs).getD (drawIdx (rng i) (rs.length + 1)) "" ∈ r :: rs :=
          getD_mem_cons r rs _
        have hmem2 : (r :: rs).getD (drawIdx (rng i) (rs.length + 1)) "" ∈
            available.filter (fun t => decide (t ∉ sel)) := by
          rw [hflt]
          exact hmem
        have := (List.mem_filter.mp hmem2).2
        simpa using this
    · exact h

theorem topUp_length_le (available : List String) (minT : ℕ) (rng : ℕ → ℚ) (fuel : ℕ)
    (sel : List String) (i : ℕ) :
    (topUp available minT rng fuel sel i).1.length ≤ max sel.length minT := by
  induction fuel generalizing sel i with
  | zero => simp [topUp]
  | succ n ih =>
    simp only [topUp]
    split
    · rename_i hlt
      split
      · exact le_max_left _ _
      · rename_i r rs hflt
        refine le_trans (ih _ _) ?_
        rw [List.length_append]
        simp only [List.length_singleton]
        omega
    · exact le_max_left _ _

theorem drawBody_some {hf : String → List String → String → String} {sid : String}
    {g : Graph} {minT : ℕ} {available : List String} {rng : ℕ → ℚ} {clock : ℕ → String}
    {start : String} {cs : ℕ} {i c : ℕ} {r : Record} {i' c' : ℕ}
    (h : drawBody hf sid g minT available rng clock start cs i c = (some r, i', c')) :
    r.scenarioId = sid ∧ r.generationMethod = "random_walk" ∧ r.startTool = start ∧
      r.toolCount = r.toolIds.length ∧ r.toolIds.Nodup ∧
      minT ≤ r.toolIds.length ∧ r.toolIds.length ≤ max cs minT := by
  unfold drawBody at h
  rcases hw : randomWalkSelection g defaultWalkLength defaultRestartProbability start
      (cs - 1) rng i with ⟨selW, iW⟩
  rw [hw] at h
  dsimp only at h
  rcases ht : topUp available minT rng minT
      ((if start ∈ selW then selW else start :: selW).take cs) iW with ⟨sel, i2⟩
  rw [ht] at h
  dsimp only at h
  have hselW : selW.Nodup := by
    have h0 := randomWalkSelection_nodup g defaultWalkLength defaultRestartProbability
      start (cs - 1) rng i
    rw [hw] at h0
    exact h0
  have hbase : ((if start ∈ selW then selW else start :: selW).take cs).Nodup := by
    refine List.Sublist.nodup (List.take_sublist _ _) ?_
    split
    · exact hselW
    · rename_i hn
      exact List.nodup_cons.mpr ⟨hn, hselW⟩
  have hsel : sel.Nodup := by
    have h0 := topUp_nodup available minT rng minT
      ((if start ∈ selW then selW else start :: selW).take cs) iW hbase
    rw [ht] at h0
    exact h0
  have hlen : sel.length ≤ max cs minT := by
    have h0 := topUp_length_le available minT rng minT
      ((if start ∈ selW then selW else start :: selW).take cs) iW
    rw [ht] at h0
    refine le_trans h0 ?_
    have : ((if start ∈ selW then selW else start :: selW).take cs).length ≤ cs := by
      simp [List.length_take]
    omega
  by_cases hge : minT ≤ sel.length
  · rw [if_pos hge] at h
    have hr : some (mkRecord hf sid sel "random_walk" start (clock c) (clock (c + 1))) =
        some r := congrArg (fun p => p.1) h
    have hr2 : mkRecord hf sid sel "random_walk" start (clock c) (clock (c + 1)) = r :=
      Option.some.inj hr
    subst hr2
    refine ⟨rfl, rfl, rfl, rfl, hsel, hge, hlen⟩
  · rw [if_neg hge] at h
    have : (none : Option Record) = some r := congrArg (fun p => p.1) h
    cases this

theorem oneDraw_some {hf : String → List String → String → String} {sid : String}
    {g : Graph} {minT maxT : ℕ} {available : List String} {rng : ℕ → ℚ}
    {clock : ℕ → String} {i c : ℕ} {r : Record} {i' c' : ℕ} (hmm : minT ≤ maxT)
    (h : oneDraw hf sid g minT maxT available rng clock i c = (some r, i', c')) :
    r.scenarioId = sid ∧ r.generationMethod = "random_walk" ∧
      r.toolCount = r.toolIds.length ∧ r.toolIds.Nodup ∧
      minT ≤ r.toolIds.length ∧ r.toolIds.length ≤ maxT := by
  unfold oneDraw at h
  have hb := drawBody_some h
  obtain ⟨h1, h2, _, h4, h5, h6, h7⟩ := hb
  refine ⟨h1, h2, h4, h5, h6, ?_⟩
  have hcs : minT + drawIdx (rng (i + 1)) (maxT - minT + 1) ≤ maxT := by
    have hlt : drawIdx (rng (i + 1)) (maxT - minT + 1) < maxT - minT + 1 :=
      Nat.mod_lt _ (Nat.succ_pos _)
    omega
  omega

theorem mem_genLoop {hf : String → List String → String → String} {sid : String}
    {g : Graph} {minT maxT : ℕ} {available : List String} {rng : ℕ → ℚ}
    {clock : ℕ → String} (n i c : ℕ) (acc : List Record) {r : Record}
    (h : r ∈ (genLoop hf sid g minT maxT available rng clock n i c acc).1) :
    r ∈ acc ∨ ∃ j d i' c',
      oneDraw hf sid g minT maxT available rng clock j d = (some r, i', c') := by
  induction n generalizing i c acc with
  | zero => exact Or.inl (by simpa [genLoop] using h)
  | succ n ih =>
    rw [genLoop] at h
    rcases ho : oneDraw hf sid g minT maxT available rng clock i c with ⟨o, i', c'⟩
    rw [ho] at h
    cases o with
    | some rr =>
      rcases ih _ _ _ h with hacc | hex
      · rcases List.mem_append.mp hacc with h1 | h2
        · exact Or.inl h1
        · right
          rw [List.mem_singleton] at h2
          subst h2
          exact ⟨i, c, i', c', ho⟩
      · exact Or.inr hex
    | none => exact ih _ _ _ h

theorem mem_generateCombinationsForScenario {hf : String → List String → String → String}
    {sid : String} {g : Graph} {minT maxT target : ℕ} {rng : ℕ → ℚ}
    {clock : ℕ → String} {j d : ℕ} {r : Record}
    (h : r ∈ (generateCombinationsForScenario hf sid g minT maxT target rng clock j d).1) :
    ∃ j' d' i' c',
      oneDraw hf sid g minT maxT g.nodes rng clock j' d' = (some r, i', c') := by
  unfold generateCombinationsForScenario at h
  split at h
  · simp at h
  · rcases hg : generateRandomWalkCombinations hf sid g minT maxT target rng clock j d with
      ⟨l, i', c'⟩
    rw [hg] at h
    have hl : r ∈ l := (List.take_sublist _ _).subset h
    unfold generateRandomWalkCombinations at hg
    have hmem : r ∈ (genLoop hf sid g minT maxT g.nodes rng clock target j d []).1 := by
      rw [hg]
      exact hl
    rcases mem_genLoop _ _ _ _ hmem with h0 | hex
    · simp at h0
    · exact hex

theorem mem_scenariosLoop {hf : String → List String → String → String}
    {minT maxT target : ℕ} {rng : ℕ → ℚ} {clock : ℕ → String}
    (gs : List (String × Graph)) (i c : ℕ) (acc : List Record) {r : Record}
    (h : r ∈ (scenariosLoop hf minT maxT target rng clock gs i c acc).1) :
    r ∈ acc ∨ ∃ sid g j d, (sid, g) ∈ gs ∧
      r ∈ (generateCombinationsForScenario hf sid g minT maxT target rng clock j d).1 := by
  induction gs generalizing i c acc with
  | nil => exact Or.inl (by simpa [scenariosLoop] using h)
  | cons p rest ih =>
    rcases p with ⟨sid, g⟩
    rw [scenariosLoop] at h
    rcases hg : generateCombinationsForScenario hf sid g minT maxT target rng clock i c with
      ⟨l, i', c'⟩
    rw [hg] at h
    rcases ih _ _ _ h with hacc | ⟨sid', g', j, d, hmem, hr⟩
    · rcases List.mem_append.mp hacc with h1 | h2
      · exact Or.inl h1
      · right
        refine ⟨sid, g, i, c, by simp, ?_⟩
        rw [hg]
        exact h2
    · right
      exact ⟨sid', g', j, d, by simp [hmem], hr⟩

theorem mem_dedupAux {seen : List (List String)} {l : List Record} {r : Record}
    (h : r ∈ dedupAux seen l) : r ∈ l := by
  induction l generalizing seen with
  | nil => simp [dedupAux] at h
  | cons x xs ih =>
    rw [dedupAux] at h
    split at h
    · exact List.mem_cons_of_mem _ (ih h)
    · rcases List.mem_cons.mp h with rfl | h2
      · simp
      · exact List.mem_cons_of_mem _ (ih h2)

theorem mem_processCombinations {hf : String → List String → String → String}
    {sqrt : ℚ → ℚ} {minT maxT target : ℕ} {tools : List Tool} {rng : ℕ → ℚ}
    {clock : ℕ → String} {i c : ℕ} {l : List Record} {r : Record}
    (hok : processCombinations hf sqrt minT maxT target tools rng clock i c = .ok l)
    (hr : r ∈ l) :
    ∃ sid g j d i' c',
      (sid, g) ∈ buildScenarioGraphs sqrt (groupToolsByScenario minT tools) ∧
      oneDraw hf sid g minT maxT g.nodes rng clock j d = (some r, i', c') := by
  unfold processCombinations at hok
  split at hok
  · cases hok
  · have hok2 := Except.ok.inj hok
    subst hok2
    have h1 := mem_dedupAux hr
    rcases mem_scenariosLoop _ _ _ _ h1 with h2 | ⟨sid, g, j, d, hmem, hr2⟩
    · simp at h2
    · obtain ⟨j', d', i', c', ho⟩ := mem_generateCombinationsForScenario hr2
      exact ⟨sid, g, j', d', i', c', hmem, ho⟩

/-! ## Claim theorems -/

/-- C1: for every CombinationRecord returned by a Sample call
(`ToolCombinationGenerator.process`), the length of `tool_ids` is at least
`min_tools_per_agent` and at most `max_tools_per_agent`, and `tool_ids`
contains no duplicate entries. -/
theorem sample_tool_count_bounds_and_nodup
    (hf : String → List String → String → String) (sqrt : ℚ → ℚ)
    (minT maxT target : ℕ) (tools : List Tool) (rng : ℕ → ℚ) (clock : ℕ → String)
    (i c : ℕ) (l : List Record) (hmm : minT ≤ maxT)
    (hok : processCombinations hf sqrt minT maxT target tools rng clock i c = .ok l) :
    ∀ r ∈ l, minT ≤ r.toolIds.length ∧ r.toolIds.length ≤ maxT ∧ r.toolIds.Nodup := by
  intro r hr
  obtain ⟨sid, g, j, d, i', c', _, ho⟩ := mem_processCombinations hok hr
  obtain ⟨_, _, h4, h5, h6, h7⟩ := oneDraw_some hmm ho
  exact ⟨h6, h7, h5⟩

theorem sample_tool_count_bounds_and_nodup_witness :
    3 ≤ (((processCombinations hashConcat sqrtZero 3 6 1 poolFive rngSeedD clockA 0
          0).toOption.getD []).getD 0 defaultRecord).toolIds.length ∧
      (((processCombinations hashConcat sqrtZero 3 6 1 poolFive rngSeedD clockA 0
          0).toOption.getD []).getD 0 defaultRecord).toolIds.length ≤ 6 ∧
      (((processCombinations hashConcat sqrtZero 3 6 1 poolFive rngSeedD clockA 0
          0).toOption.getD []).getD 0 defaultRecord).toolIds.Nodup :=
  sample_tool_count_bounds_and_nodup hashConcat sqrtZero 3 6 1 poolFive rngSeedD clockA
    0 0 _ (by decide) rfl _ (by decide)

theorem dedupAux_pairwise_and_unseen (seen : List (List String)) (l : List Record) :
    (dedupAux seen l).Pairwise (fun a b => sigOf a ≠ sigOf b) ∧
      ∀ r ∈ dedupAux seen l, sigOf r ∉ seen := by
  induction l generalizing seen with
  | nil => simp [dedupAux]
  | cons x xs ih =>
    rw [dedupAux]
    split
    · exact ih seen
    · rename_i hnin
      obtain ⟨ihp, ihs⟩ := ih (sigOf x :: seen)
      constructor
      · refine List.pairwise_cons.mpr ⟨?_, ihp⟩
        intro b hb
        have := ihs b hb
        intro he
        exact this (by rw [← he]; exact List.mem_cons_self _ _)
      · intro r hr
        rcases List.mem_cons.mp hr with rfl | h2
        · exact hnin
        · intro hc
          exact ihs r h2 (List.mem_cons_of_mem _ hc)

theorem dedupAux_first_seen {seen : List (List String)} {l : List Record} {r : Record}
    (h : r ∈ dedupAux seen l) :
    sigOf r ∉ seen ∧ l.find? (fun x => decide (sigOf x = sigOf r)) = some r := by
  induction l generalizing seen with
  | nil => simp [dedupAux] at h
  | cons x xs ih =>
    rw [dedupAux] at h
    split at h
    · rename_i hin
      obtain ⟨h1, h2⟩ := ih h
      have hne : sigOf x ≠ sigOf r := fun he => h1 (he ▸ hin)
      refine ⟨h1, ?_⟩
      rw [List.find?_cons_of_neg _ (by simpa using hne)]
      exact h2
    · rename_i hnin
      rcases List.mem_cons.mp h with rfl | h2
      · exact ⟨hnin, List.find?_cons_of_pos _ (by simp)⟩
      · obtain ⟨h1, h2⟩ := ih h2
        have hne : sigOf x ≠ sigOf r := by
          intro he
          exact h1 (by rw [← he]; exact List.mem_cons_self _ _)
        refine ⟨fun hc => h1 (List.mem_cons_of_mem _ hc), ?_⟩
        rw [List.find?_cons_of_neg _ (by simpa using hne)]
        exact h2

theorem dedupAux_covers (seen : List (List String)) (l : List Record) :
    ∀ x ∈ l, sigOf x ∈ seen ∨ ∃ r ∈ dedupAux seen l, sigOf r = sigOf x := by
  induction l generalizing seen with
  | nil => simp
  | cons y ys ih =>
    intro x hx
    rw [dedupAux]
    split
    · rename_i hin
      rcases List.mem_cons.mp hx with rfl | h2
      · exact Or.inl hin
      · exact ih seen x h2
    · rename_i hnin
      rcases List.mem_cons.mp hx with rfl | h2
      · exact Or.inr ⟨x, List.mem_cons_self _ _, rfl⟩
      · rcases ih (sigOf y :: seen) x h2 with hs | ⟨r, hr, he⟩
        · rcases List.mem_cons.mp hs with he | hs2
          · exact Or.inr ⟨y, List.mem_cons_self _ _, he.symm⟩
          · exact Or.inl hs2
        · exact Or.inr ⟨r, List.mem_cons_of_mem _ hr, he⟩

/-- C2: in the output of a single Sample call no two records share the same
sorted `tool_ids` signature, and `_deduplicate_combinations` keeps, for each
signature, exactly the first-seen candidate in generation order. -/
theorem sample_dedup_first_seen_by_signature :
    (∀ (hf : String → List String → String → String) (sqrt : ℚ → ℚ)
        (minT maxT target : ℕ) (tools : List Tool) (rng : ℕ → ℚ)
        (clock : ℕ → String) (i c : ℕ) (l : List Record),
        processCombinations hf sqrt minT maxT target tools rng clock i c = .ok l →
        l.Pairwise (fun a b => sigOf a ≠ sigOf b)) ∧
    (∀ combos : List Record, ∀ r ∈ deduplicateCombinations combos,
        combos.find? (fun x => decide (sigOf x = sigOf r)) = some r) ∧
    (∀ combos : List Record, ∀ x ∈ combos,
        ∃ r ∈ deduplicateCombinations combos, sigOf r = sigOf x) := by
  refine ⟨?_, ?_, ?_⟩
  · intro hf sqrt minT maxT target tools rng clock i c l hok
    unfold processCombinations at hok
    split at hok
    · cases hok
    · have hok2 := Except.ok.inj hok
      subst hok2
      exact (dedupAux_pairwise_and_unseen [] _).1
  · intro combos r hr
    exact (dedupAux_first_seen hr).2
  · intro combos x hx
    rcases dedupAux_covers [] combos x hx with hs | hex
    · simp at hs
    · exact hex

theorem sample_dedup_first_seen_by_signature_witness :
    ((processCombinations hashConcat sqrtZero 3 6 1 poolFive rngSeedD clockA
        0 0).toOption.getD []).Pairwise (fun a b => sigOf a ≠ sigOf b) :=
  sample_dedup_first_seen_by_signature.1 hashConcat sqrtZero 3 6 1 poolFive rngSeedD
    clockA 0 0 _ rfl

theorem mem_similaritiesFor {sim : List ℚ → List ℚ → ℚ} {minThr : ℚ}
    {emb : List (String × List ℚ)} {i : ℕ} {p : String × ℚ}
    (h : p ∈ similaritiesFor sim minThr emb i) :
    minThr ≤ p.2 ∧ ∃ j, i < j ∧ ∃ hj : j < emb.length,
      p = (emb[j].1, sim (emb.getD i ("", [])).2 emb[j].2) := by
  unfold similaritiesFor at h
  obtain ⟨hmem, hp⟩ := List.mem_filter.mp h
  obtain ⟨t2, ht2, he⟩ := List.mem_map.mp hmem
  obtain ⟨n, hn, hget⟩ := List.mem_iff_getElem.mp ht2
  have hjlen : i + 1 + n < emb.length := by
    rw [List.length_drop] at hn
    omega
  refine ⟨by simpa using hp, i + 1 + n, by omega, hjlen, ?_⟩
  have ht2e : t2 = emb[i + 1 + n] := by
    rw [← hget, List.getElem_drop]
  rw [← he, ht2e]

theorem mem_foldl_append {α β : Type} (f : β → List α) (l : List β) (init : List α)
    {e : α} (h : e ∈ l.foldl (fun es i => es ++ f i) init) :
    e ∈ init ∨ ∃ i ∈ l, e ∈ f i := by
  induction l generalizing init with
  | nil => exact Or.inl (by simpa using h)
  | cons x xs ih =>
    rw [List.foldl_cons] at h
    rcases ih _ h with h1 | ⟨i, hi, hfi⟩
    · rcases List.mem_append.mp h1 with h2 | h3
      · exact Or.inl h2
      · exact Or.inr ⟨x, List.mem_cons_self _ _, h3⟩
    · exact Or.inr ⟨i, List.mem_cons_of_mem _ hi, hfi⟩

theorem mem_buildEdges {sim : List ℚ → List ℚ → ℚ} {minThr retThr : ℚ} {cap : ℕ}
    {emb : List (String × List ℚ)} {e : String × String × ℚ}
    (h : e ∈ buildEdgesBySimilarity sim minThr retThr cap emb) :
    ∃ i j, i < j ∧ ∃ hi : i < emb.length, ∃ hj : j < emb.length,
      e.1 = emb[i].1 ∧ e.2.1 = emb[j].1 ∧ e.2.2 = sim emb[i].2 emb[j].2 ∧
      minThr ≤ e.2.2 ∧ retThr ≤ e.2.2 := by
  unfold buildEdgesBySimilarity at h
  rcases mem_foldl_append _ _ _ h with h0 | ⟨i, hi, hfi⟩
  · simp at h0
  · have hilen : i < emb.length := List.mem_range.mp hi
    unfold edgesForIndex at hfi
    obtain ⟨p, hp, he⟩ := List.mem_map.mp hfi
    obtain ⟨hpt, hret⟩ := List.mem_filter.mp hp
    have hps : p ∈ sortDescBy Prod.snd (similaritiesFor sim minThr emb i) :=
      (List.take_sublist _ _).subset hpt
    obtain ⟨hmin, j, hij, hj, hpe⟩ := mem_similaritiesFor (mem_sortDescBy.mp hps)
    refine ⟨i, j, hij, hilen, hj, ?_⟩
    have hgd : emb.getD i ("", []) = emb[i] := List.getD_eq_getElem _ _ hilen
    subst he
    subst hpe
    refine ⟨?_, rfl, ?_, ?_, ?_⟩
    · rw [hgd]
    · rw [hgd]
    · simpa using hmin
    · simpa using hret

/-- C3: every edge of a graph produced by `build_graph` has weight at least
the retention threshold `similarity_threshold` (default 0.7): an edge is only
inserted for a candidate pair whose similarity clears the stricter retention
threshold — stated for `_build_edges_by_similarity` with arbitrary similarity
function, thresholds and fan-out cap, and for `build_graph` itself with the
source's fixed thresholds. -/
theorem built_graph_edge_weight_ge_retention :
    (∀ (sim : List ℚ → List ℚ → ℚ) (minThr retThr : ℚ) (cap : ℕ)
        (emb : List (String × List ℚ)),
        ∀ e ∈ buildEdgesBySimilarity sim minThr retThr cap emb, retThr ≤ e.2.2) ∧
    (∀ (sqrt : ℚ → ℚ) (tools : List Tool),
        ∀ e ∈ (buildGraphCore sqrt tools).edges, defaultRetentionThreshold ≤ e.2.2) := by
  constructor
  · intro sim minThr retThr cap emb e he
    obtain ⟨_, _, _, _, _, _, _, _, _, hret⟩ := mem_buildEdges he
    exact hret
  · intro sqrt tools e he
    obtain ⟨_, _, _, _, _, _, _, _, _, hret⟩ := mem_buildEdges he
    exact hret

theorem built_graph_edge_weight_ge_retention_witness :
    (7 : ℚ)/10 ≤
      (((buildGraphCore sqrtNaive poolUnit).edges).getD 0 ("", "", 0)).2.2 := by
  have h := built_graph_edge_weight_ge_retention.2 sqrtNaive poolUnit
    (((buildGraphCore sqrtNaive poolUnit).edges).getD 0 ("", "", 0)) (by decide)
  simpa [defaultRetentionThreshold] using h

theorem drawBody_strip (hf hf' : String → List String → String → String) (sid : String)
    (g : Graph) (minT : ℕ) (available : List String) (rng : ℕ → ℚ)
    (clock clock' : ℕ → String) (start : String) (cs : ℕ) (i c : ℕ) :
    (drawBody hf sid g minT available rng clock start cs i c).1.map stripRecord =
      (drawBody hf' sid g minT available rng clock' start cs i c).1.map stripRecord ∧
    (drawBody hf sid g minT available rng clock start cs i c).2.1 =
      (drawBody hf' sid g minT available rng clock' start cs i c).2.1 ∧
    (drawBody hf sid g minT available rng clock start cs i c).2.2 =
      (drawBody hf' sid g minT available rng clock' start cs i c).2.2 := by
  unfold drawBody
  rcases randomWalkSelection g defaultWalkLength defaultRestartProbability start
      (cs - 1) rng i with ⟨selW, iW⟩
  dsimp only
  rcases topUp available minT rng minT
      ((if start ∈ selW then selW else start :: selW).take cs) iW with ⟨sel, i2⟩
  dsimp only
  split
  · exact ⟨rfl, rfl, rfl⟩
  · exact ⟨rfl, rfl, rfl⟩

theorem genLoop_strip (hf hf' : String → List String → String → String) (sid : String)
    (g : Graph) (minT maxT : ℕ) (available : List String) (rng : ℕ → ℚ)
    (clock clock' : ℕ → String) (n : ℕ) (i c : ℕ) (acc acc' : List Record)
    (hacc : acc.map stripRecord = acc'.map stripRecord) :
    (genLoop hf sid g minT maxT available rng clock n i c acc).1.map stripRecord =
      (genLoop hf' sid g minT maxT available rng clock' n i c acc').1.map stripRecord ∧
    (genLoop hf sid g minT maxT available rng clock n i c acc).2.1 =
      (genLoop hf' sid g minT maxT available rng clock' n i c acc').2.1 ∧
    (genLoop hf sid g minT maxT available rng clock n i c acc).2.2 =
      (genLoop hf' sid g minT maxT available rng clock' n i c acc').2.2 := by
  induction n generalizing i c acc acc' with
  | zero => exact ⟨by simpa [genLoop] using hacc, by simp [genLoop], by simp [genLoop]⟩
  | succ n ih =>
    rw [genLoop, genLoop]
    have hd := drawBody_strip hf hf' sid g minT available rng clock clock'
      (listChoice available (rng i)) (minT + drawIdx (rng (i + 1)) (maxT - minT + 1))
      (i + 2) c
    rcases ho : oneDraw hf sid g minT maxT available rng clock i c with ⟨o, i1, c1⟩
    rcases ho' : oneDraw hf' sid g minT maxT available rng clock' i c with ⟨o', i1', c1'⟩
    unfold oneDraw at ho ho'
    rw [ho, ho'] at hd
    obtain ⟨ho0, hi0, hc0⟩ := hd
    dsimp only at ho0 hi0 hc0
    subst hi0
    subst hc0
    cases o with
    | some r =>
      cases o' with
      | some r' =>
        dsimp only
        apply ih
        have hsr : stripRecord r = stripRecord r' := by simpa using ho0
        simp [hacc, hsr]
      | none => simp at ho0
    | none =>
      cases o' with
      | some r' => simp at ho0
      | none =>
        dsimp only
        exact ih _ _ _ _ hacc

theorem generateCombinationsForScenario_strip (hf hf' : String → List String → String → String)
    (sid : String) (g : Graph) (minT maxT target : ℕ) (rng : ℕ → ℚ)
    (clock clock' : ℕ → String) (i c : ℕ) :
    (generateCombinationsForScenario hf sid g minT maxT target rng clock i c).1.map
        stripRecord =
      (generateCombinationsForScenario hf' sid g minT maxT target rng clock' i c).1.map
        stripRecord ∧
    (generateCombinationsForScenario hf sid g minT maxT target rng clock i c).2.1 =
      (generateCombinationsForScenario hf' sid g minT maxT target rng clock' i c).2.1 ∧
    (generateCombinationsForScenario hf sid g minT maxT target rng clock i c).2.2 =
      (generateCombinationsForScenario hf' sid g minT maxT target rng clock' i c).2.2 := by
  unfold generateCombinationsForScenario
  split
  · exact ⟨rfl, rfl, rfl⟩
  · have hg := genLoop_strip hf hf' sid g minT maxT g.nodes rng clock clock' target i c
      [] [] rfl
    unfold generateRandomWalkCombinations
    rcases hg1 : genLoop hf sid g minT maxT g.nodes rng clock target i c [] with
      ⟨l1, i1, c1⟩
    rcases hg2 : genLoop hf' sid g minT maxT g.nodes rng clock' target i c [] with
      ⟨l2, i2, c2⟩
    rw [hg1, hg2] at hg
    obtain ⟨hl, hi, hc⟩ := hg
    dsimp only at hl hi hc
    subst hi
    subst hc
    refine ⟨?_, rfl, rfl⟩
    dsimp only
    rw [List.map_take, List.map_take, hl]

theorem scenariosLoop_strip (hf hf' : String → List String → String → String)
    (minT maxT target : ℕ) (rng : ℕ → ℚ) (clock clock' : ℕ → String)
    (gs : List (String × Graph)) (i c : ℕ) (acc acc' : List Record)
    (hacc : acc.map stripRecord = acc'.map stripRecord) :
    (scenariosLoop hf minT maxT target rng clock gs i c acc).1.map stripRecord =
      (scenariosLoop hf' minT maxT target rng clock' gs i c acc').1.map stripRecord := by
  induction gs generalizing i c acc acc' with
  | nil => simpa [scenariosLoop] using hacc
  | cons p rest ih =>
    rcases p with ⟨sid, g⟩
    rw [scenariosLoop, scenariosLoop]
    have hg := generateCombinationsForScenario_strip hf hf' sid g minT maxT target rng
      clock clock' i c
    rcases hq1 : generateCombinationsForScenario hf sid g minT maxT target rng clock i c
      with ⟨l1, i1, c1⟩
    rcases hq2 : generateCombinationsForScenario hf' sid g minT maxT target rng clock' i c
      with ⟨l2, i2, c2⟩
    rw [hq1, hq2] at hg
    obtain ⟨hl, hi, hc⟩ := hg
    dsimp only at hl hi hc
    subst hi
    subst hc
    dsimp only
    apply ih
    simp only [List.map_append, hacc, hl]

theorem dedupAux_strip (seen : List (List String)) {l l' : List Record}
    (h : l.map stripRecord = l'.map stripRecord) :
    (dedupAux seen l).map stripRecord = (dedupAux seen l').map stripRecord := by
  induction l generalizing seen l' with
  | nil =>
    cases l' with
    | nil => rfl
    | cons y ys => simp at h
  | cons x xs ih =>
    cases l' with
    | nil => simp at h
    | cons y ys =>
      simp only [List.map_cons, List.cons.injEq] at h
      obtain ⟨hxy, htail⟩ := h
      have hsig : sigOf x = sigOf y := by
        unfold sigOf
        have ht : x.toolIds = y.toolIds := congrArg (fun p => p.2.1) hxy
        rw [ht]
      rw [dedupAux, dedupAux, hsig]
      by_cases hmem : sigOf y ∈ seen
      · rw [if_pos hmem, if_pos hmem]
        exact ih seen htail
      · rw [if_neg hmem, if_neg hmem]
        simp only [List.map_cons]
        rw [hxy]
        rw [ih (sigOf y :: seen) htail]

/-- C4 (amended): a Sample run is a deterministic function of the tool pool,
the parameters, the oracle randomness stream, the id-hash function and the
clock stream; with the pool, parameters and randomness stream fixed but the
clock (and/or hash function) varying, the two outputs agree on every field
except the hashed `id` and `metadata.generated_at` — record for record, in
the same order. -/
theorem sample_deterministic_up_to_timestamps
    (hf hf' : String → List String → String → String) (sqrt : ℚ → ℚ)
    (minT maxT target : ℕ) (tools : List Tool) (rng : ℕ → ℚ)
    (clock clock' : ℕ → String) (i c : ℕ) (l l' : List Record)
    (h : processCombinations hf sqrt minT maxT target tools rng clock i c = .ok l)
    (h' : processCombinations hf' sqrt minT maxT target tools rng clock' i c = .ok l') :
    l.map stripRecord = l'.map stripRecord := by
  unfold processCombinations at h h'
  split at h
  · cases h
  · split at h'
    · cases h'
    · have hl := Except.ok.inj h
      have hl' := Except.ok.inj h'
      subst hl
      subst hl'
      exact dedupAux_strip []
        (scenariosLoop_strip hf hf' minT maxT target rng clock clock' _ i c [] [] rfl)

theorem sample_deterministic_up_to_timestamps_witness :
    ((processCombinations hashConcat sqrtZero 3 6 1 poolFive rngSeedD clockA 0
        0).toOption.getD []).map stripRecord =
      ((processCombinations hashConcat sqrtZero 3 6 1 poolFive rngSeedD clockB 0
        0).toOption.getD []).map stripRecord :=
  sample_deterministic_up_to_timestamps hashConcat hashConcat sqrtZero 3 6 1 poolFive
    rngSeedD clockA clockB 0 0 _ _ rfl rfl

/-- C4 counterexample: with the tool pool, all parameters and the randomness
stream held fixed, two Sample calls that observe different wall-clock values
return different outputs (the records differ in `metadata.generated_at` and in
the timestamp-hashed `id`), so fixed-seed determinism fails on the code. -/
theorem sample_not_deterministic_under_fixed_seed :
    (processCombinations hashConcat sqrtZero 3 6 1 poolFive rngSeedD clockA 0
        0).toOption.getD [] ≠
      (processCombinations hashConcat sqrtZero 3 6 1 poolFive rngSeedD clockB 0
        0).toOption.getD [] := by
  decide

theorem getRelatedTools_length (g : Graph) (start : String) (maxCount : ℕ)
    (h : start ∈ g.nodes) :
    (getRelatedTools g start maxCount).length =
      min maxCount (neighborsOf g.edges start).length := by
  unfold getRelatedTools
  rw [if_pos h]
  simp [List.length_take, length_sortDescBy]

theorem getRelatedTools_nodup (g : Graph) (start : String) (maxCount : ℕ)
    (hnd : (neighborsOf g.edges start).Nodup) :
    (getRelatedTools g start maxCount).Nodup := by
  unfold getRelatedTools
  split
  · have h2 : ((sortDescBy Prod.snd ((neighborsOf g.edges start).map
        (fun nb => (nb, edgeWeight g start nb)))).map Prod.fst).Nodup := by
      have hperm := (sortDescBy_perm Prod.snd ((neighborsOf g.edges start).map
        (fun nb => (nb, edgeWeight g start nb)))).map Prod.fst
      have hcomp : (Prod.fst ∘ fun nb : String => (nb, edgeWeight g start nb)) = id := rfl
      rw [List.Perm.nodup_iff hperm, List.map_map, hcomp, List.map_id]
      exact hnd
    rw [List.map_take]
    exact (List.take_sublist _ _).nodup h2
  · exact List.nodup_nil

/-- C5 (amended): when the walk phase collected no non-start node, the padding
fills the result with `get_related_tools(start, count)` — the highest-weight
direct neighbors of `start` — so the result has `min count deg(start)`
elements; but in general the padding call requests only the top
`count - len(selected)` neighbors *without excluding already-selected ones*
(see the counterexample), so the result can stay short of `count` even when
`start` has at least `count` distinct neighbors. -/
theorem walk_pad_exact_when_nothing_collected
    (g : Graph) (walkLen : ℕ) (restartProb : ℚ) (start : String) (count : ℕ)
    (rng : ℕ → ℚ) (i : ℕ) (hstart : start ∈ g.nodes)
    (hempty : ((walkLoop g restartProb start count rng (walkLen * count) []
        start i).1).erase start = [])
    (hnd : (neighborsOf g.edges start).Nodup) :
    ((randomWalkSelection g walkLen restartProb start count rng i).1).length =
      min count (neighborsOf g.edges start).length := by
  unfold randomWalkSelection
  rw [if_pos hstart]
  rcases hw : walkLoop g restartProb start count rng (walkLen * count) [] start i with
    ⟨sel, i2⟩
  rw [hw] at hempty
  dsimp only at hempty ⊢
  rw [hempty]
  unfold padSelection
  rcases Nat.eq_zero_or_pos count with hc0 | hcpos
  · subst hc0
    simp
  · rw [if_pos (by simpa using hcpos)]
    have hgrt : unionNew []
        (getRelatedTools g start (count - List.length ([] : List String))) =
        getRelatedTools g start count := by
      rw [unionNew_of_disjoint (getRelatedTools_nodup g start _ hnd) (by simp)]
      simp
    rw [hgrt]
    rw [List.length_take, getRelatedTools_length g start count hstart]
    omega

/-- C5 counterexample: `start = S` has two distinct neighbors and
`count = 2`, yet `random_walk_selection` returns the single-element list
[A]: the padding call `get_related_tools(S, 1)` returns the top-weight
neighbor A, which is already selected, so the result stays short of
`count`. -/
theorem walk_padding_can_stay_short :
    2 ≤ (neighborsOf gC5.edges "S").length ∧ (neighborsOf gC5.edges "S").Nodup ∧
      "S" ∈ gC5.nodes ∧
      (randomWalkSelection gC5 6 (15/100) "S" 2 rngC5 0).1 = ["A"] ∧
      ((randomWalkSelection gC5 6 (15/100) "S" 2 rngC5 0).1).length ≠ 2 := by
  decide

theorem walk_pad_exact_when_nothing_collected_witness :
    ((randomWalkSelection gC5 6 (15/100) "S" 2 rngZero 0).1).length =
      min 2 (neighborsOf gC5.edges "S").length :=
  walk_pad_exact_when_nothing_collected gC5 6 (15/100) "S" 2 rngZero 0 (by decide)
    (by decide) (by decide)

theorem erase_eq_nil_of_subsingleton {l : List String} {a : String} (hnd : l.Nodup)
    (h : ∀ x ∈ l, x = a) : l.erase a = [] := by
  cases l with
  | nil => rfl
  | cons x xs =>
    have hx : x = a := h x (by simp)
    subst hx
    cases xs with
    | nil => simp
    | cons y ys =>
      have hy : y = x := h y (by simp)
      subst hy
      exact absurd (List.mem_cons_self _ _) (List.nodup_cons.mp hnd).1

theorem walkLoop_isolated_subset (g : Graph) (restartProb : ℚ) (start : String)
    (count : ℕ) (rng : ℕ → ℚ) (fuel : ℕ) (sel : List String) (i : ℕ)
    (hiso : neighborsOf g.edges start = []) :
    ∀ x ∈ (walkLoop g restartProb start count rng fuel sel start i).1,
      x ∈ sel ∨ x = start := by
  induction fuel generalizing sel i with
  | zero =>
    intro x hx
    rw [walkLoop] at hx
    exact Or.inl hx
  | succ n ih =>
    intro x hx
    rw [walkLoop] at hx
    split at hx
    · exact Or.inl hx
    · rw [hiso] at hx
      split at hx
      all_goals {
        rcases ih _ _ x hx with h1 | h2
        · rcases mem_insertNew.mp h1 with h3 | h3
          · exact Or.inl h3
          · exact Or.inr h3
        · exact Or.inr h2
      }

theorem getRelatedTools_isolated (g : Graph) (start : String) (maxCount : ℕ)
    (hiso : neighborsOf g.edges start = []) :
    getRelatedTools g start maxCount = [] := by
  unfold getRelatedTools
  split
  · rw [hiso]
    simp [sortDescBy]
  · rfl

/-- The first half of C6, proved in general: a walk seeded at a node with no
neighbors returns the empty list. -/
theorem walk_from_isolated_seed_empty (g : Graph) (walkLen : ℕ) (restartProb : ℚ)
    (start : String) (count : ℕ) (rng : ℕ → ℚ) (i : ℕ)
    (hiso : neighborsOf g.edges start = []) :
    (randomWalkSelection g walkLen restartProb start count rng i).1 = [] := by
  unfold randomWalkSelection
  split
  · rcases hw : walkLoop g restartProb start count rng (walkLen * count) [] start i with
      ⟨sel, i2⟩
    dsimp only
    have hsub : ∀ x ∈ sel, x = start := by
      intro x hx
      have h0 := walkLoop_isolated_subset g restartProb start count rng
        (walkLen * count) [] i hiso x (by rw [hw]; exact hx)
      rcases h0 with h1 | h2
      · simp at h1
      · exact h2
    have hnd : sel.Nodup := by
      have h0 := walkLoop_nodup g restartProb start count rng (walkLen * count) [] start i
        List.nodup_nil
      rw [hw] at h0
      exact h0
    rw [erase_eq_nil_of_subsingleton hnd hsub]
    unfold padSelection
    split
    · rw [getRelatedTools_isolated g start _ hiso]
      simp [unionNew]
    · simp
  · rfl

theorem topUp_extends (available : List String) (minT : ℕ) (rng : ℕ → ℚ) (fuel : ℕ)
    (sel : List String) (i : ℕ) :
    ∃ extra, (topUp available minT rng fuel sel i).1 = sel ++ extra := by
  induction fuel generalizing sel i with
  | zero => exact ⟨[], by simp [topUp]⟩
  | succ n ih =>
    rw [topUp]
    split
    · split
      · exact ⟨[], by simp⟩
      · rename_i r rs hflt
        obtain ⟨extra, he⟩ :=
          ih (sel ++ [(r :: rs).getD (drawIdx (rng i) (rs.length + 1)) ""]) (i + 1)
        exact ⟨(r :: rs).getD (drawIdx (rng i) (rs.length + 1)) "" :: extra, by
          rw [he, List.append_assoc]
          rfl⟩
    · exact ⟨[], by simp⟩

theorem filter_not_mem_append_singleton (available sel : List String) (x : String) :
    available.filter (fun t => decide (t ∉ sel ++ [x])) =
      (available.filter (fun t => decide (t ∉ sel))).filter (· != x) := by
  rw [List.filter_filter]
  apply List.filter_congr
  intro a _
  by_cases h1 : a ∈ sel <;> by_cases h2 : a = x <;> simp [h1, h2, List.mem_append]

theorem topUp_length_ge (available : List String) (minT : ℕ) (rng : ℕ → ℚ)
    (fuel : ℕ) (sel : List String) (i : ℕ) (hav : available.Nodup)
    (hfuel : minT ≤ fuel + sel.length)
    (hen : minT ≤ (available.filter (fun t => decide (t ∉ sel))).length + sel.length) :
    minT ≤ (topUp available minT rng fuel sel i).1.length := by
  induction fuel generalizing sel i with
  | zero =>
    rw [topUp]
    dsimp only
    omega
  | succ n ih =>
    rw [topUp]
    split
    · rename_i hlt
      split
      · rename_i hemp
        rw [hemp] at hen
        simp only [List.length_nil, Nat.zero_add] at hen
        dsimp only
        omega
      · rename_i r rs hflt
        have hxf : (r :: rs).getD (drawIdx (rng i) (rs.length + 1)) "" ∈
            available.filter (fun t => decide (t ∉ sel)) := by
          rw [hflt]
          exact getD_mem_cons r rs _
        have hLnd : (available.filter (fun t => decide (t ∉ sel))).Nodup :=
          hav.filter _
        apply ih
        · rw [List.length_append]
          simp only [List.length_singleton]
          omega
        · rw [filter_not_mem_append_singleton]
          rw [← hLnd.erase_eq_filter, List.length_erase_of_mem hxf, List.length_append]
          have hpos : 1 ≤ (available.filter (fun t => decide (t ∉ sel))).length :=
            List.length_pos_of_mem hxf
          simp only [List.length_singleton]
          omega
    · dsimp only
      omega

theorem filter_not_mem_singleton (available : List String) (x : String) :
    available.filter (fun t => decide (t ∉ [x])) = available.filter (· != x) := by
  apply List.filter_congr
  intro a _
  by_cases h2 : a = x <;> simp [h2]

/-- C6 (amended): a walk seeded at a node with no neighbors returns the empty
list, but the sampler does not discard the draw: it re-inserts the seed,
tops up with oracle-chosen unused tools of the scenario, and accepts the
draw with exactly `min_tools_per_agent` tools whenever the scenario offers
that many distinct tools — producing a CombinationRecord that contains the
isolated seed. -/
theorem isolated_seed_walk_empty_but_draw_accepted
    (hf : String → List String → String → String) (sid : String) (g : Graph)
    (minT : ℕ) (available : List String) (rng : ℕ → ℚ) (clock : ℕ → String)
    (start : String) (cs : ℕ) (i c : ℕ)
    (hiso : neighborsOf g.edges start = [])
    (hav : available.Nodup) (hsav : start ∈ available)
    (h1 : 1 ≤ minT) (hma : minT ≤ available.length) (hcs : 1 ≤ cs) :
    (randomWalkSelection g defaultWalkLength defaultRestartProbability start (cs - 1)
        rng i).1 = [] ∧
    ∃ r i' c', drawBody hf sid g minT available rng clock start cs i c =
        (some r, i', c') ∧
      r.startTool = start ∧ start ∈ r.toolIds ∧ r.toolIds.length = minT := by
  have hwalk := walk_from_isolated_seed_empty g defaultWalkLength
    defaultRestartProbability start (cs - 1) rng i hiso
  refine ⟨hwalk, ?_⟩
  unfold drawBody
  rcases hw : randomWalkSelection g defaultWalkLength defaultRestartProbability start
      (cs - 1) rng i with ⟨selW, iW⟩
  have hsw : selW = [] := by
    rw [hw] at hwalk
    exact hwalk
  subst hsw
  dsimp only
  have hbase : ((if start ∈ ([] : List String) then [] else start :: ([] : List String)).take
      cs) = [start] := by
    rw [if_neg (by simp)]
    exact List.take_of_length_le (by simpa using hcs)
  rw [hbase]
  rcases ht : topUp available minT rng minT [start] iW with ⟨sel, i2⟩
  have hge : minT ≤ sel.length := by
    have h0 := topUp_length_ge available minT rng minT [start] iW hav
      (by simp) ?hen
    · rw [ht] at h0
      exact h0
    case hen =>
      rw [filter_not_mem_singleton, ← hav.erase_eq_filter,
        List.length_erase_of_mem hsav]
      simp only [List.length_singleton]
      omega
  have hle : sel.length ≤ minT := by
    have h0 := topUp_length_le available minT rng minT [start] iW
    rw [ht] at h0
    simpa using le_trans h0 (by simp [h1])
  have hpre : start ∈ sel := by
    obtain ⟨extra, he⟩ := topUp_extends available minT rng minT [start] iW
    rw [ht] at he
    dsimp only at he
    rw [he]
    simp
  dsimp only
  rw [if_pos hge]
  exact ⟨_, _, _, rfl, rfl, hpre, le_antisymm hle hge⟩

theorem isolated_seed_walk_empty_but_draw_accepted_witness :
    (randomWalkSelection (buildGraphCore sqrtZero poolFive) defaultWalkLength
        defaultRestartProbability "D" (3 - 1) rngZero 0).1 = [] :=
  (isolated_seed_walk_empty_but_draw_accepted hashConcat "S1"
    (buildGraphCore sqrtZero poolFive) 3 (buildGraphCore sqrtZero poolFive).nodes
    rngZero clockA "D" 3 0 0 (by decide) (by decide) (by decide) (by decide)
    (by decide) (by decide)).1

/-- C6 counterexample: in the §8-style scenario the walk seeded at the
isolated tool D does return the empty list (first conjunct), yet the Sample
call still emits a CombinationRecord for that draw, seeded at D and
containing D — the draw is not discarded. -/
theorem isolated_seed_draw_not_discarded :
    (randomWalkSelection (buildGraphCore sqrtZero poolFive) 6 (15/100) "D" 2 rngSeedD
        2).1 = [] ∧
    ((processCombinations hashConcat sqrtZero 3 6 1 poolFive rngSeedD clockA 0
        0).toOption.getD []).map Record.startTool = ["D"] ∧
    "D" ∈ (((processCombinations hashConcat sqrtZero 3 6 1 poolFive rngSeedD clockA 0
        0).toOption.getD []).getD 0 defaultRecord).toolIds := by
  decide

/-- C7 (amended): the empty tool pool is the only input condition that aborts
a Sample call — `process` raises for an empty pool and otherwise always
returns a result list.  Embedding vectors of inconsistent length are *not*
fatal: `_calculate_cosine_similarity` catches the exception raised by
`np.dot` and returns 0.0, so mismatched pairs merely fail the similarity
thresholds.  Per-scenario build failures (a tool without a metadata dict)
error that scenario's graph and `_build_scenario_graphs` skips it, keeping
every scenario whose build succeeded. -/
theorem only_empty_pool_aborts_sample :
    (∀ (hf : String → List String → String → String) (sqrt : ℚ → ℚ)
        (minT maxT target : ℕ) (rng : ℕ → ℚ) (clock : ℕ → String) (i c : ℕ),
        processCombinations hf sqrt minT maxT target [] rng clock i c =
          .error "No tools provided") ∧
    (∀ (hf : String → List String → String → String) (sqrt : ℚ → ℚ)
        (minT maxT target : ℕ) (tools : List Tool) (rng : ℕ → ℚ)
        (clock : ℕ → String) (i c : ℕ), tools ≠ [] →
        ∃ l, processCombinations hf sqrt minT maxT target tools rng clock i c = .ok l) ∧
    (∀ (sqrt : ℚ → ℚ) (e1 e2 : List ℚ), e1.length ≠ e2.length →
        cosineSim sqrt e1 e2 = 0) ∧
    (∀ (sqrt : ℚ → ℚ) (ts : List Tool), (∃ t ∈ ts, t.metadata = none) →
        buildGraphE sqrt ts = .error "Failed to build tool graph") ∧
    (∀ (sqrt : ℚ → ℚ) (groups : List (String × List Tool)) (sid : String) (g : Graph),
        (sid, g) ∈ buildScenarioGraphs sqrt groups →
        ∃ ts, (sid, ts) ∈ groups ∧ buildGraphE sqrt ts = .ok g) := by
  refine ⟨?_, ?_, ?_, ?_, ?_⟩
  · intro hf sqrt minT maxT target rng clock i c
    rfl
  · intro hf sqrt minT maxT target tools rng clock i c hne
    unfold processCombinations
    rw [if_neg hne]
    exact ⟨_, rfl⟩
  · intro sqrt e1 e2 hne
    unfold cosineSim
    rw [if_pos hne]
  · intro sqrt ts ⟨t, ht, hmeta⟩
    unfold buildGraphE
    rw [if_neg]
    intro hall
    have := List.all_eq_true.mp hall t ht
    rw [hmeta] at this
    simp at this
  · intro sqrt groups sid g hmem
    unfold buildScenarioGraphs at hmem
    obtain ⟨p, hp, he⟩ := List.mem_filterMap.mp hmem
    rcases p with ⟨sid', ts⟩
    rcases hbe : buildGraphE sqrt ts with g' | g'
    · rw [hbe] at he
      simp at he
    · rw [hbe] at he
      simp only [Option.some.injEq, Prod.mk.injEq] at he
      obtain ⟨h1, h2⟩ := he
      subst h1
      subst h2
      exact ⟨ts, hp, hbe⟩

theorem only_empty_pool_aborts_sample_witness :
    cosineSim sqrtZero [1] [1, 0] = 0 :=
  only_empty_pool_aborts_sample.2.2.1 sqrtZero [1] [1, 0] (by decide)

/-- C7 counterexample: a pool whose embedding vectors have inconsistent
lengths is not an InputError: the cosine computation swallows the length
mismatch and returns 0.0, a graph is still built (with no edge for the
mismatched pair), and the Sample call returns records instead of aborting. -/
theorem mismatched_embeddings_do_not_abort :
    cosineSim sqrtZero [1] [1, 0] = 0 ∧
      (buildGraphCore sqrtZero poolMismatch).edges = [] ∧
      (buildGraphE sqrtZero poolMismatch).toOption =
        some (buildGraphCore sqrtZero poolMismatch) ∧
      (processCombinations hashConcat sqrtZero 3 6 1 poolMismatch rngZero clockA 0
          0).toOption.getD [] ≠ [] := by
  decide

theorem mem_addToGroup {acc : List (String × List Tool)} {s : String} {t : Tool}
    {k : String} {l : List Tool} (h : (k, l) ∈ addToGroup acc s t) :
    (k, l) ∈ acc ∨ (∃ l0, (k, l0) ∈ acc ∧ k = s ∧ l = l0 ++ [t]) ∨
      (k = s ∧ l = [t]) := by
  induction acc with
  | nil =>
    simp only [addToGroup, List.mem_singleton, Prod.mk.injEq] at h
    exact Or.inr (Or.inr ⟨h.1, h.2⟩)
  | cons p rest ih =>
    rcases p with ⟨k0, ts0⟩
    rw [addToGroup] at h
    split at h
    · rename_i hks
      rcases List.mem_cons.mp h with h1 | h2
      · simp only [Prod.mk.injEq] at h1
        obtain ⟨hk, hl⟩ := h1
        subst hk
        right
        left
        exact ⟨ts0, List.mem_cons_self _ _, hks, hl⟩
      · exact Or.inl (List.mem_cons_of_mem _ h2)
    · rcases List.mem_cons.mp h with h1 | h2
      · left
        rw [h1]
        exact List.mem_cons_self _ _
      · rcases ih h2 with h3 | ⟨l0, h4, h5, h6⟩ | h7
        · exact Or.inl (List.mem_cons_of_mem _ h3)
        · exact Or.inr (Or.inl ⟨l0, List.mem_cons_of_mem _ h4, h5, h6⟩)
        · exact Or.inr (Or.inr h7)

theorem groupFold_entry_bound (tools : List Tool) (acc : List (String × List Tool))
    (s : String) (ts : List Tool)
    (h : (s, ts) ∈ tools.foldl (fun acc t =>
        match t.scenarioIds with
        | [] => acc
        | s0 :: _ => addToGroup acc s0 t) acc) :
    ∃ ts0 : List Tool, ((s, ts0) ∈ acc ∨ ts0 = []) ∧
      ts.length ≤ ts0.length +
        (tools.filter (fun t => decide (t.scenarioIds.head? = some s))).length := by
  induction tools generalizing acc with
  | nil =>
    exact ⟨ts, Or.inl (by simpa using h), by simp⟩
  | cons t rest ih =>
    rw [List.foldl_cons] at h
    rcases hsc : t.scenarioIds with _ | ⟨s0, ss⟩
    · rw [hsc] at h
      obtain ⟨ts0, h1, h2⟩ := ih acc h
      refine ⟨ts0, h1, ?_⟩
      have : (List.filter (fun t => decide (t.scenarioIds.head? = some s)) (t :: rest)) =
          List.filter (fun t => decide (t.scenarioIds.head? = some s)) rest := by
        rw [List.filter_cons_of_neg]
        simp [hsc]
      rw [this]
      exact h2
    · rw [hsc] at h
      obtain ⟨ts0, h1, h2⟩ := ih (addToGroup acc s0 t) h
      rcases h1 with h1 | h1
      · rcases mem_addToGroup h1 with h3 | ⟨l0, h4, h5, h6⟩ | ⟨h7, h8⟩
        · refine ⟨ts0, Or.inl h3, ?_⟩
          refine le_trans h2 ?_
          have hfle : (List.filter (fun t => decide (t.scenarioIds.head? = some s))
              rest).length ≤ (List.filter (fun t => decide (t.scenarioIds.head? = some s))
              (t :: rest)).length := by
            by_cases hp : t.scenarioIds.head? = some s
            · rw [List.filter_cons_of_pos (by simpa using hp)]
              simp
            · rw [List.filter_cons_of_neg (by simpa using hp)]
          omega
        · subst h5
          have hp : t.scenarioIds.head? = some s := by
            rw [hsc]
            rfl
          refine ⟨l0, Or.inl h4, ?_⟩
          rw [List.filter_cons_of_pos (by simpa using hp)]
          rw [h6] at h2
          simp only [List.length_append, List.length_singleton, List.length_cons,
            List.length_nil] at h2 ⊢
          omega
        · subst h7
          have hp : t.scenarioIds.head? = some s := by
            rw [hsc]
            rfl
          refine ⟨[], Or.inr rfl, ?_⟩
          rw [List.filter_cons_of_pos (by simpa using hp)]
          rw [h8] at h2
          simp only [List.length_singleton, List.length_nil, List.length_cons] at h2 ⊢
          omega
      · subst h1
        refine ⟨[], Or.inr rfl, ?_⟩
        refine le_trans h2 ?_
        by_cases hp : t.scenarioIds.head? = some s
        · rw [List.filter_cons_of_pos (by simpa using hp)]
          simp
        · rw [List.filter_cons_of_neg (by simpa using hp)]

theorem mem_unionNew {acc l : List String} {x : String} (h : x ∈ unionNew acc l) :
    x ∈ acc ∨ x ∈ l := by
  induction l generalizing acc with
  | nil => exact Or.inl (by simpa [unionNew] using h)
  | cons y ys ih =>
    rw [unionNew, List.foldl_cons] at h
    have h0 : x ∈ unionNew (insertNew acc y) ys := by simpa [unionNew] using h
    rcases ih h0 with h1 | h2
    · rcases mem_insertNew.mp h1 with h3 | h3
      · exact Or.inl h3
      · exact Or.inr (by simp [h3])
    · exact Or.inr (List.mem_cons_of_mem _ h2)

theorem mem_scenarioDistribution_fst {l : List Record} {x : String}
    (h : x ∈ (scenarioDistribution l).map Prod.fst) : ∃ r ∈ l, r.scenarioId = x := by
  unfold scenarioDistribution at h
  obtain ⟨p, hp, he⟩ := List.mem_map.mp h
  have hp2 : p ∈ sortDescBy (fun p => ((p.2 : ℕ) : ℚ))
      ((distinctFirst (l.map Record.scenarioId)).map
        (fun s => (s, (l.filter (fun r => decide (r.scenarioId = s))).length))) :=
    (List.take_sublist _ _).subset hp
  obtain ⟨s, hs, hes⟩ := List.mem_map.mp (mem_sortDescBy.mp hp2)
  have hsl : s ∈ l.map Record.scenarioId := by
    have hs0 : s ∈ unionNew [] (l.map Record.scenarioId) := by
      simpa [distinctFirst, unionNew] using hs
    rcases mem_unionNew hs0 with h1 | h1
    · simp at h1
    · exact h1
  obtain ⟨r, hr, hre⟩ := List.mem_map.mp hsl
  refine ⟨r, hr, ?_⟩
  rw [hre]
  rw [← he, ← hes]

/-- C8: a scenario group whose tool count is below `min_tools_per_agent` is
dropped entirely by `_group_tools_by_scenario`: it appears in no scenario
graph, no returned CombinationRecord carries it, and it is absent from the
scenario histogram of `get_combination_stats`. -/
theorem undersized_scenario_dropped
    (hf : String → List String → String → String) (sqrt : ℚ → ℚ)
    (minT maxT target : ℕ) (tools : List Tool) (rng : ℕ → ℚ) (clock : ℕ → String)
    (i c : ℕ) (s : String)
    (hsmall : (tools.filter
        (fun t => decide (t.scenarioIds.head? = some s))).length < minT) :
    s ∉ (groupToolsByScenario minT tools).map Prod.fst ∧
    s ∉ (buildScenarioGraphs sqrt (groupToolsByScenario minT tools)).map Prod.fst ∧
    ∀ l, processCombinations hf sqrt minT maxT target tools rng clock i c = .ok l →
      (∀ r ∈ l, r.scenarioId ≠ s) ∧ s ∉ (scenarioDistribution l).map Prod.fst := by
  have hgroups : s ∉ (groupToolsByScenario minT tools).map Prod.fst := by
    intro hmem
    obtain ⟨p, hp, he⟩ := List.mem_map.mp hmem
    rcases p with ⟨s', ts⟩
    dsimp only at he
    subst he
    obtain ⟨hpf, hplen⟩ := List.mem_filter.mp hp
    obtain ⟨ts0, h1, h2⟩ := groupFold_entry_bound tools [] _ ts hpf
    rcases h1 with h1 | h1
    · simp at h1
    · subst h1
      simp only [List.length_nil, Nat.zero_add] at h2
      simp only [decide_eq_true_eq] at hplen
      omega
  have hgraphs : s ∉ (buildScenarioGraphs sqrt (groupToolsByScenario minT tools)).map
      Prod.fst := by
    intro hmem
    obtain ⟨p, hp, he⟩ := List.mem_map.mp hmem
    rcases p with ⟨s', g⟩
    subst he
    obtain ⟨ts, hts, _⟩ := only_empty_pool_aborts_sample.2.2.2.2 sqrt _ _ _ hp
    exact hgroups (List.mem_map.mpr ⟨(s', ts), hts, rfl⟩)
  refine ⟨hgroups, hgraphs, ?_⟩
  intro l hok
  have hrec : ∀ r ∈ l, r.scenarioId ≠ s := by
    intro r hr he
    obtain ⟨sid, g, j, d, i', c', hmem, ho⟩ := mem_processCombinations hok hr
    have hsid : r.scenarioId = sid := by
      unfold oneDraw at ho
      exact (drawBody_some ho).1
    apply hgraphs
    refine List.mem_map.mpr ⟨(sid, g), hmem, ?_⟩
    dsimp only
    rw [← hsid]
    exact he
  refine ⟨hrec, ?_⟩
  intro hmem
  obtain ⟨r, hr, hre⟩ := mem_scenarioDistribution_fst hmem
  exact hrec r hr hre

theorem undersized_scenario_dropped_witness :
    "S2" ∉ (groupToolsByScenario 3 poolSmallScenario).map Prod.fst :=
  (undersized_scenario_dropped hashConcat sqrtZero 3 6 1 poolSmallScenario rngZero
    clockA 0 0 "S2" (by decide)).1

theorem assoc_nodup_eq {l : List (String × List ℚ)} (hnd : (l.map Prod.fst).Nodup)
    {k : String} {v : List ℚ} (hkv : (k, v) ∈ l) {i : ℕ} (hi : i < l.length)
    (hfst : l[i].1 = k) : l[i] = (k, v) := by
  obtain ⟨i2, hi2, hget⟩ := List.mem_iff_getElem.mp hkv
  have hi1 : i < (l.map Prod.fst).length := by simpa using hi
  have hi2m : i2 < (l.map Prod.fst).length := by simpa using hi2
  have h1 : (l.map Prod.fst).get ⟨i, hi1⟩ = (l.map Prod.fst).get ⟨i2, hi2m⟩ := by
    simp only [List.get_eq_getElem, List.getElem_map]
    rw [hfst, hget]
  have hij : i = i2 := by
    have h2 := (List.Nodup.get_inj_iff hnd).mp h1
    exact congrArg Fin.val h2
  subst hij
  rw [hget]

/-- C9: for embedding vectors where at least one side has zero norm (sum of
squares 0, so a real square root of 0), `_calculate_cosine_similarity`
returns exactly 0.0 via its guard and never divides by zero — whenever the
division branch is reached, the denominator is nonzero; consequently a tool
whose (non-empty) embedding has zero norm gets no similarity edge under the
default thresholds (0.5/0.7).  (Hypotheses on the abstracted square root:
`sqrt 0 = 0`; a tool with an absent or empty embedding never enters the
similarity computation at all.) -/
theorem zero_norm_cosine_safe (sqrt : ℚ → ℚ) (hs0 : sqrt 0 = 0) :
    (∀ e1 e2 : List ℚ, normSq e1 = 0 → cosineSim sqrt e1 e2 = 0) ∧
    (∀ e1 e2 : List ℚ, normSq e2 = 0 → cosineSim sqrt e1 e2 = 0) ∧
    (∀ e1 e2 : List ℚ, cosineSim sqrt e1 e2 = 0 ∨
        (sqrt (normSq e1) * sqrt (normSq e2) ≠ 0 ∧
          cosineSim sqrt e1 e2 =
            dotProd e1 e2 / (sqrt (normSq e1) * sqrt (normSq e2)))) ∧
    (∀ (tools : List Tool) (t : Tool) (e : List ℚ),
        t ∈ tools → t.metadata = some ⟨some e⟩ → e ≠ [] → normSq e = 0 →
        ((embeddedTools tools).map Prod.fst).Nodup →
        ∀ u w, (t.id, u, w) ∉ (buildGraphCore sqrt tools).edges ∧
          (u, t.id, w) ∉ (buildGraphCore sqrt tools).edges) := by
  have ha : ∀ e1 e2 : List ℚ, normSq e1 = 0 → cosineSim sqrt e1 e2 = 0 := by
    intro e1 e2 h1
    unfold cosineSim
    split
    · rfl
    · rw [if_pos (Or.inl (by rw [h1, hs0]))]
  have hb : ∀ e1 e2 : List ℚ, normSq e2 = 0 → cosineSim sqrt e1 e2 = 0 := by
    intro e1 e2 h2
    unfold cosineSim
    split
    · rfl
    · rw [if_pos (Or.inr (by rw [h2, hs0]))]
  refine ⟨ha, hb, ?_, ?_⟩
  · intro e1 e2
    unfold cosineSim
    split
    · exact Or.inl rfl
    · split
      · exact Or.inl rfl
      · rename_i hguard
        push_neg at hguard
        exact Or.inr ⟨mul_ne_zero hguard.1 hguard.2, rfl⟩
  · intro tools t e ht hmeta hne hnormz hnd u w
    have hassoc : (t.id, e) ∈ embeddedTools tools := by
      refine List.mem_filterMap.mpr ⟨t, ht, ?_⟩
      rw [hmeta]
      simp [hne]
    constructor
    · intro hedge
      obtain ⟨i, j, hij, hi, hj, h1, h2, h3, hmin, _⟩ := mem_buildEdges hedge
      dsimp only at h1 h2 h3
      have hent : (embeddedTools tools)[i] = (t.id, e) :=
        assoc_nodup_eq hnd hassoc hi h1.symm
      rw [h3, hent] at hmin
      rw [ha e (embeddedTools tools)[j].2 hnormz] at hmin
      rw [defaultMinThreshold] at hmin
      norm_num at hmin
    · intro hedge
      obtain ⟨i, j, hij, hi, hj, h1, h2, h3, hmin, _⟩ := mem_buildEdges hedge
      dsimp only at h1 h2 h3
      have hent : (embeddedTools tools)[j] = (t.id, e) :=
        assoc_nodup_eq hnd hassoc hj h2.symm
      rw [h3, hent] at hmin
      rw [hb (embeddedTools tools)[i].2 e hnormz] at hmin
      rw [defaultMinThreshold] at hmin
      norm_num at hmin

theorem zero_norm_cosine_safe_witness :
    cosineSim sqrtNaive [0] [1] = 0 :=
  (zero_norm_cosine_safe sqrtNaive (by decide)).1 [0] [1] (by decide)

/-- C10: the candidate ranking computed for the tool at index `i` of the
embedded-tool list contains only tools at indices `j > i` — each unordered
pair is examined exactly once, from its earlier-indexed endpoint's pass —
so the last-listed tool's own pass proposes no edges, and two input lists
containing the same tools in different orders can yield different edge sets
(exhibited with the source's thresholds 0.5/0.7 and fan-out cap 10). -/
theorem pair_examined_once_from_earlier_index :
    (∀ (sim : List ℚ → List ℚ → ℚ) (minThr : ℚ) (emb : List (String × List ℚ))
        (i : ℕ), ∀ p ∈ similaritiesFor sim minThr emb i,
        ∃ j, i < j ∧ ∃ hj : j < emb.length, p.1 = emb[j].1) ∧
    (∀ (sim : List ℚ → List ℚ → ℚ) (minThr : ℚ) (emb : List (String × List ℚ)),
        emb ≠ [] → similaritiesFor sim minThr emb (emb.length - 1) = []) ∧
    (∃ (sim : List ℚ → List ℚ → ℚ) (l1 l2 : List (String × List ℚ)),
        l1.Perm l2 ∧
        buildEdgesBySimilarity sim defaultMinThreshold defaultRetentionThreshold
            defaultMaxEdgesPerNode l1 ≠
          buildEdgesBySimilarity sim defaultMinThreshold defaultRetentionThreshold
            defaultMaxEdgesPerNode l2) := by
  refine ⟨?_, ?_, ?_⟩
  · intro sim minThr emb i p hp
    obtain ⟨_, j, hij, hj, hpe⟩ := mem_similaritiesFor hp
    exact ⟨j, hij, hj, by rw [hpe]⟩
  · intro sim minThr emb hne
    unfold similaritiesFor
    have hlen : emb.length - 1 + 1 = emb.length :=
      Nat.succ_pred_eq_of_pos (List.length_pos.mpr hne)
    rw [hlen, List.drop_length]
    rfl
  · refine ⟨simStar, orderHubFirst, orderLeafFirst, ?_, ?_⟩
    · exact List.Perm.swap (leafTool 1) hubTool leafTail
    · decide

theorem pair_examined_once_from_earlier_index_witness :
    similaritiesFor simStar (1/2) orderHubFirst (orderHubFirst.length - 1) = [] :=
  pair_examined_once_from_earlier_index.2.1 simStar (1/2) orderHubFirst (by decide)

end AgentDataGen
